import Mathlib

/-!
Verification of the code-element extraction and context-budgeted retrieval
pipeline of the AIKodReviewer backend (`indexer.py`, `llm_client.py`,
`vector_store.py`), as a shallow embedding in Lean.

Python strings are modelled as Lean `String`/`List Char` (ASCII behaviour of
`str.lower`, `\s`, `\w`); Python `dict`s as association lists; machine
integers as `Int`/`Nat` (no overflow is relevant); exceptions as `Option`.
-/

namespace AIKod

/-! ## Python string primitives -/

/-- Python `\s` / `str.isspace` on the ASCII range (space, tab, newline,
carriage return, vertical tab, form feed). -/
def isPySpace (c : Char) : Bool :=
  c = ' ' || c = '\t' || c = '\n' || c = '\r' || c = '\x0b' || c = '\x0c'

/-- Python `\w` word characters (ASCII letters, digits, underscore). -/
def isWordChar (c : Char) : Bool :=
  c.isAlphanum || c = '_'

/-- Python `str.lstrip()` on a character list. -/
def pyLstrip (l : List Char) : List Char :=
  l.dropWhile isPySpace

/-- Python `str.strip()` on a character list. -/
def pyStrip (l : List Char) : List Char :=
  ((l.dropWhile isPySpace).reverse.dropWhile isPySpace).reverse

/-- Python `len(line) - len(line.lstrip())`: the leading-whitespace width used by
`_find_end_line`. -/
def indentOf (l : List Char) : Nat :=
  l.length - (pyLstrip l).length

/-- Python `str.split(sep)` for a one-character separator: always returns at
least one (possibly empty) piece. -/
def splitOnChar (sep : Char) : List Char → List (List Char)
  | [] => [[]]
  | c :: rest =>
    if c = sep then [] :: splitOnChar sep rest
    else
      match splitOnChar sep rest with
      | [] => [[c]]
      | l :: ls => (c :: l) :: ls

/-- Python `"\n".join`-style concatenation (`sep.join(parts)`). -/
def pyJoin (sep : String) : List String → String
  | [] => ""
  | [x] => x
  | x :: y :: rest => x ++ sep ++ pyJoin sep (y :: rest)

/-- Python substring test `needle in hay` on character lists. -/
def containsChars (needle : List Char) : List Char → Bool
  | [] => needle.isPrefixOf []
  | c :: rest => needle.isPrefixOf (c :: rest) || containsChars needle rest

/-- Python `needle in hay` on strings. -/
def strIn (needle hay : String) : Bool :=
  containsChars needle.data hay.data

/-- Python `str.lower()` (ASCII model): lowercases every character. -/
def pyLower (s : String) : String :=
  String.mk (s.data.map Char.toLower)

/-- Association-list lookup, modelling Python `dict` access / `in`. -/
def lookupA {α : Type} : List (String × α) → String → Option α
  | [], _ => none
  | (k, v) :: rest, key => if k = key then some v else lookupA rest key

/-! ## Data model (`models.py`) -/

/-- Embeds `models.CodeElement`. Line numbers are 1-based inclusive; the extractors
only ever produce positive line numbers, so they are modelled as `Nat`. -/
structure CodeElement where
  name : String
  type : String
  file_path : String
  start_line : Nat
  end_line : Nat
  language : String
  signature : Option String
deriving DecidableEq, Repr

/-- Embeds `models.CodeSnippet`. `start_line`/`end_line` come from arbitrary callers
of `get_code_snippet`, hence `Int`. -/
structure CodeSnippet where
  file_path : String
  start_line : Int
  end_line : Int
  code : String
  element_name : Option String
deriving DecidableEq, Repr

/-- Embeds `models.ProjectIndex` (the fields the claims use). -/
structure ProjectIndex where
  project_id : String
  total_files : Nat
  supported_files : Nat
  languages : List String
  elements : List CodeElement
deriving DecidableEq, Repr

/-! ## `indexer.py`: pattern-tier extraction -/

/-- The stop test of `_find_end_line`'s scan: the line is non-blank
(`line.strip()`), not a comment (`not line.strip().startswith("#")`), and its
leading-whitespace width is at most the match line's. -/
def breaksBlock (startIndent : Nat) (line : List Char) : Bool :=
  !(pyStrip line).isEmpty
    && !(match pyStrip line with
        | '#' :: _ => true
        | _ => false)
    && indentOf line ≤ startIndent

/-- The `for i in range(start_line, len(lines))` loop body of
`_find_end_line`: `i` counts the 0-based index of the head of the remaining
suffix; on exhaustion `i = len(lines)`, matching the final
`return len(lines)`. -/
def findEndLoop (startIndent startLine : Nat) : Nat → List (List Char) → Nat
  | i, [] => i
  | i, line :: rest =>
    if breaksBlock startIndent line ∧ startLine - 1 < i then i
    else findEndLoop startIndent startLine (i + 1) rest

/-- Embeds `CodeIndexer._find_end_line(lines, start_line)` (`start_line` 1-based, as
at every call site). -/
def find_end_line (lines : List (List Char)) (startLine : Nat) : Nat :=
  if lines.length ≤ startLine then startLine + 1
  else
    findEndLoop (indentOf (lines.getD (startLine - 1) [])) startLine
      startLine (lines.drop startLine)

/-- Embeds `re.match(r"^def\s+(\w+)\s*\(", line)`: the captured function name, if
the line matches. The greedy scans are exact here because `\s`, `\w` and the
literals that follow each of them are disjoint character sets. -/
def matchDefLine (line : List Char) : Option String :=
  match line with
  | 'd' :: 'e' :: 'f' :: rest =>
    if (rest.takeWhile isPySpace).isEmpty then none
    else
      let r1 := rest.dropWhile isPySpace
      let name := r1.takeWhile isWordChar
      if name.isEmpty then none
      else
        match (r1.dropWhile isWordChar).dropWhile isPySpace with
        | '(' :: _ => some (String.mk name)
        | _ => none
  | _ => none

/-- Embeds `re.match(r"^class\s+(\w+)\s*[:\(]", line)`: the captured class name, if
the line matches. -/
def matchClassLine (line : List Char) : Option String :=
  match line with
  | 'c' :: 'l' :: 'a' :: 's' :: 's' :: rest =>
    if (rest.takeWhile isPySpace).isEmpty then none
    else
      let r1 := rest.dropWhile isPySpace
      let name := r1.takeWhile isWordChar
      if name.isEmpty then none
      else
        match (r1.dropWhile isWordChar).dropWhile isPySpace with
        | ':' :: _ => some (String.mk name)
        | '(' :: _ => some (String.mk name)
        | _ => none
  | _ => none

/-- The `for i, line in enumerate(lines, 1)` loop of
`_extract_python_elements` (regex fallback tier): `i` is the 1-based number
of the head of the remaining suffix. A `def` match appends a `function`
element, a `class` match a `class` element, each with
`end_line = _find_end_line(lines, i)` and `signature = line.strip()`. -/
def extractPyLoop (lines : List (List Char)) (filePath lang : String) :
    Nat → List (List Char) → List CodeElement
  | _, [] => []
  | i, line :: rest =>
    (match matchDefLine line with
     | some n =>
       [⟨n, "function", filePath, i, find_end_line lines i, lang,
         some (String.mk (pyStrip line))⟩]
     | none => []) ++
    (match matchClassLine line with
     | some n =>
       [⟨n, "class", filePath, i, find_end_line lines i, lang,
         some (String.mk (pyStrip line))⟩]
     | none => []) ++
    extractPyLoop lines filePath lang (i + 1) rest

/-- Embeds `CodeIndexer._extract_python_elements` in its regex-fallback tier (the
tree-sitter tier delegates to an external structural parser and is the
pattern tier's alternative, not part of it). -/
def extract_python_elements (code : String) (filePath lang : String) :
    List CodeElement :=
  let lines := splitOnChar '\n' code.data
  extractPyLoop lines filePath lang 1 lines

/-- Python `len(code.split("\n"))`: the file's line count as the source computes
it. -/
def lineCount (code : String) : Nat :=
  (splitOnChar '\n' code.data).length

/-! ## `llm_client.py`: the Context Budgeter -/

/-- Embeds `f"--- File: {snippet.file_path} (Lines {snippet.start_line}-{snippet.end_line}) ---\n"`. -/
def snippetHeader (s : CodeSnippet) : String :=
  "--- File: " ++ s.file_path ++ " (Lines " ++ toString s.start_line ++ "-"
    ++ toString s.end_line ++ ") ---\n"

/-- Embeds `snippet_size = len(snippet_header) + len(snippet_text) + 10`. -/
def snippetSize (s : CodeSnippet) : Nat :=
  (snippetHeader s).length + s.code.length + 10

/-- Embeds `snippet.file_path in ["PROJECT_METADATA", "ELEMENTS_SUMMARY"]`: the
snippets exempt from the character budget. -/
def isExempt (s : CodeSnippet) : Bool :=
  s.file_path = "PROJECT_METADATA" || s.file_path = "ELEMENTS_SUMMARY"

/-- The appending loop of `_build_context`: threads `total_chars` and emits
three parts (`header`, `body`, `""`) per included snippet. A snippet whose
size would push `total_chars` over `max_context_chars` stops the loop
(`break`) unless it is exempt, in which case it is appended regardless and
still added to `total_chars`. -/
def buildParts (maxChars : Nat) : List CodeSnippet → Nat → List String
  | [], _ => []
  | s :: rest, total =>
    if maxChars < total + snippetSize s ∧ isExempt s = false then []
    else
      snippetHeader s :: s.code :: "" ::
        buildParts maxChars rest (total + snippetSize s)

/-- Embeds `LMStudioClient._build_context(code_snippets, max_context_chars)`:
`"\n".join` of the emitted parts (empty input short-circuits to `""`). -/
def build_context (snippets : List CodeSnippet) (maxChars : Nat) : String :=
  if snippets.isEmpty then ""
  else pyJoin "\n" (buildParts maxChars snippets 0)

/-- The combined serialized sizes of the budget-exempt snippets of a list. -/
def exemptSizes (snippets : List CodeSnippet) : Nat :=
  ((snippets.filter (fun s => isExempt s)).map snippetSize).sum

/-- Embeds `LMStudioClient._estimate_tokens`: `max(1, len(text) // 4)`. -/
def estimate_tokens (text : String) : Nat :=
  max 1 (text.length / 4)

/-- A chat-history message (`{"role": ..., "content": ...}`). -/
structure ChatMsg where
  role : String
  content : String
deriving DecidableEq, Repr

/-- The `history_text` accumulated by `_build_prompt`: empty for a falsy
history, else a banner plus one line per message of `chat_history[-3:]`,
each `role-label: content[:200]`. -/
def historyTextOf (history : List ChatMsg) : String :=
  if history.isEmpty then ""
  else
    "\n\nÖNCEKİ SOHBET:\n" ++
      ((history.drop (history.length - 3)).foldl
        (fun acc msg =>
          acc ++ (if msg.role = "user" then "Kullanıcı" else "Asistan")
            ++ ": " ++ msg.content.take 200 ++ "\n")
        "")

/-- Embeds `LMStudioClient._build_prompt(question, context, chat_history)`, with the
model's token limit (`self.max_context_tokens`) passed explicitly. Returns
the prompt together with the token-budget condition
`total_tokens > self.max_context_tokens`, whose only effect in the source is
a `logger.warning` call (modelled by the Boolean). -/
def build_prompt (maxContextTokens : Nat) (question context : String)
    (history : List ChatMsg) : String × Bool :=
  let historyText := historyTextOf history
  let contextTokens := estimate_tokens context
  let questionTokens := estimate_tokens question
  let historyTokens := estimate_tokens historyText
  let totalTokens := contextTokens + questionTokens + historyTokens + 100
  let warned := maxContextTokens < totalTokens
  let prompt :=
    if context ≠ "" then
      "Aşağıdaki kod parçacıklarını ve konteksti dikkate alarak soruya cevap ver."
        ++ historyText ++ "\n\nKONTEKST:\n" ++ context ++ "\n\nSORU: "
        ++ question ++ "\n\nCEVAP:"
    else
      "Şu soruya cevap ver:" ++ historyText ++ "\n\nSORU: " ++ question
        ++ "\n\nCEVAP:"
  (prompt, warned)

/-! ## `vector_store.py`: bounded dependency-closure expansion -/

/-- The metadata record held per element by the similarity index: the fields
`get_element_with_dependencies` reads (`dependencies` is the comma-joined
string stored by `index_project`). -/
structure VMeta where
  name : String
  dependencies : String
deriving DecidableEq, Repr

/-- Embeds `metadata.get("dependencies", "").split(",")`, each piece stripped, empty
pieces dropped (`if dep.strip():`), in order. -/
def depsOf (m : VMeta) : List String :=
  ((splitOnChar ',' m.dependencies.data).map pyStrip).filterMap
    (fun d => if d.isEmpty then none else some (String.mk d))

/-- The `(visited, result)` state threaded through `_get_recursive`. -/
abbrev WalkState := List String × List (VMeta × Nat)

/-- Embeds `_get_recursive(name, depth)` of `get_element_with_dependencies`, with
the similarity index abstracted to `index : name → Option VMeta`
(`collection.query(query_texts=[name], n_results=1)`; `none` models an empty
id list) and an explicit fuel argument: the body at fuel `f + 1` recurses
with fuel `f`, mirroring the `depth + 1` of the source, so any fuel
`≥ max_depth + 2 - depth` is beyond the source's own `depth > max_depth`
cutoff (proved below). Guards (`depth > max_depth or name in visited`) are
checked before recursing; a visited name is pushed before querying. -/
def getRecFuel (index : String → Option VMeta) (maxDepth : Nat) :
    Nat → String → Nat → WalkState → WalkState
  | 0, _, _, st => st
  | fuel + 1, name, depth, (visited, res) =>
    if maxDepth < depth ∨ visited.contains name then (visited, res)
    else
      let visited' := name :: visited
      match index name with
      | none => (visited', res)
      | some m =>
        (depsOf m).foldl
          (fun st d => getRecFuel index maxDepth fuel d (depth + 1) st)
          (visited', res ++ [(m, depth)])

/-- Embeds `VectorStore.get_element_with_dependencies(project_id, element_name,
max_depth)` run from `_get_recursive(element_name, 0)`; the fuel
`max_depth + 2` is adequate (theorem below: the result is the same for every
adequate fuel). A missing collection returns `[]` before the walk and is not
modelled. -/
def get_element_with_dependencies (index : String → Option VMeta)
    (maxDepth : Nat) (elementName : String) : List (VMeta × Nat) :=
  (getRecFuel index maxDepth (maxDepth + 2) elementName 0 ([], [])).2

/-! ## `indexer.py`: search, snippets, project indexing -/

/-- Embeds `CodeIndexer.search_elements(project_id, query)`: `[]` for an unknown
project id, else the stored elements whose lowered name or lowered
`(signature or "")` contains the lowered query (the source's append loop is
a filter). -/
def search_elements (projects : List (String × ProjectIndex))
    (projectId query : String) : List CodeElement :=
  match lookupA projects projectId with
  | none => []
  | some idx =>
    let queryLower := pyLower query
    idx.elements.filter
      (fun e =>
        strIn queryLower (pyLower e.name)
          || strIn queryLower (pyLower (e.signature.getD "")))

/-- Python slice-index normalization for `l[a:b]`: a negative index counts
from the end (clamped at 0), a nonnegative one is clamped at `len`. -/
def pySliceIdx (len : Nat) (i : Int) : Nat :=
  if i < 0 then ((len : Int) + i).toNat else min i.toNat len

/-- Python `l[a:b]` (step 1). -/
def pySlice {α : Type} (l : List α) (a b : Int) : List α :=
  (l.take (pySliceIdx l.length b)).drop (pySliceIdx l.length a)

/-- Embeds `CodeIndexer.get_code_snippet(project_id, file_path, start_line,
end_line)` over the raw-text store `self.code_snippets` (a dict of dicts,
modelled as nested association lists). -/
def get_code_snippet (store : List (String × List (String × String)))
    (projectId filePath : String) (startLine endLine : Int) :
    Option CodeSnippet :=
  match lookupA store projectId with
  | none => none
  | some files =>
    match lookupA files filePath with
    | none => none
    | some code =>
      let lines := (splitOnChar '\n' code.data).map String.mk
      let startIdx : Int := max 0 (startLine - 1)
      let endIdx : Int := min (lines.length : Int) endLine
      some ⟨filePath, startLine, endLine,
        pyJoin "\n" (pySlice lines startIdx endIdx), none⟩

/-- Embeds `Path(file_path).suffix.lower()` composed with the `ext_map` lookup of
`CodeIndexer._detect_language`. `pathlib`'s suffix is the final component's
extension: the part from the last dot, empty when that dot is absent,
leading, or trailing. -/
def pySuffix (path : String) : String :=
  let name := (splitOnChar '/' path.data).getLastD []
  let i := name.length - 1 - (name.reverse.takeWhile (fun c => c ≠ '.')).length
  if (name.reverse.takeWhile (fun c => c ≠ '.')).length = name.length then ""
  else if 0 < i ∧ i < name.length - 1 then String.mk (name.drop i)
  else ""

/-- Embeds `CodeIndexer._detect_language(file_path)`. -/
def detect_language (filePath : String) : Option String :=
  lookupA
    [(".py", "python"), (".js", "javascript"), (".jsx", "javascript"),
     (".ts", "typescript"), (".tsx", "typescript"), (".java", "java"),
     (".php", "php"), (".html", "html"), (".htm", "html"),
     (".css", "css"), (".cpp", "cpp"), (".c", "c"), (".go", "go"),
     (".rs", "rust")]
    (pyLower (pySuffix filePath))

/-- One file visited by `index_project`'s walk: its path relative to the
project root, and the outcome of the `try` block's read — `none` models an
exception raised while reading or extracting (caught by the `except`). -/
structure PyFile where
  path : String
  readResult : Option String
deriving DecidableEq, Repr

/-- The accumulating state of `index_project`'s walk. -/
structure IndexState where
  total : Nat
  supported : Nat
  langs : List String
  elements : List CodeElement
  store : List (String × String)
deriving DecidableEq, Repr

/-- Embeds `languages_set.add(lang)` (insertion-ordered set model; only membership
is claimed). -/
def addLang (langs : List String) (l : String) : List String :=
  if l ∈ langs then langs else langs ++ [l]

/-- The per-file body of `index_project`'s walk, parametric in the
per-language extractor dispatch `extract code path lang` (the source
dispatches to `_extract_python_elements` / `_extract_javascript_elements` /
`_extract_java_elements` / `[]`). Every file bumps `total_files`; an
unrecognized extension skips the rest; a recognized language bumps
`supported_files` and records the language before the `try`, so a failed
read (`readResult = none`) is caught after those updates and contributes
nothing further. -/
def indexStep (extract : String → String → String → List CodeElement)
    (st : IndexState) (f : PyFile) : IndexState :=
  let st := { st with total := st.total + 1 }
  match detect_language f.path with
  | none => st
  | some lang =>
    let st := { st with supported := st.supported + 1,
                        langs := addLang st.langs lang }
    match f.readResult with
    | none => st
    | some code =>
      { st with store := st.store ++ [(f.path, code)],
                elements := st.elements ++ extract code f.path lang }

/-- Embeds `CodeIndexer.index_project`'s file walk (the `os.walk` loop flattened to
the visited-file list, directory exclusion already applied). -/
def index_project (extract : String → String → String → List CodeElement)
    (files : List PyFile) : IndexState :=
  files.foldl (indexStep extract) ⟨0, 0, [], [], []⟩

/-! ## Lemmas about `_find_end_line` and the extraction loop -/

theorem findEndLoop_ge (ind s : Nat) :
    ∀ ls i, i ≤ findEndLoop ind s i ls := by
  intro ls
  induction ls with
  | nil => intro i; simp [findEndLoop]
  | cons line rest ih =>
    intro i
    simp only [findEndLoop]
    split
    · exact Nat.le_refl i
    · exact Nat.le_trans (Nat.le_succ i) (ih (i + 1))

theorem findEndLoop_le (ind s : Nat) :
    ∀ ls i, findEndLoop ind s i ls ≤ i + ls.length := by
  intro ls
  induction ls with
  | nil => intro i; simp [findEndLoop]
  | cons line rest ih =>
    intro i
    simp only [findEndLoop, List.length_cons]
    split
    · omega
    · have := ih (i + 1); omega

theorem find_end_line_ge (lines : List (List Char)) (s : Nat) :
    s ≤ find_end_line lines s := by
  unfold find_end_line
  split
  · omega
  · exact findEndLoop_ge _ _ _ _

theorem find_end_line_le (lines : List (List Char)) (s : Nat)
    (h : s ≤ lines.length) : find_end_line lines s ≤ lines.length + 1 := by
  unfold find_end_line
  split
  · omega
  · rename_i hlt
    have h2 := findEndLoop_le (indentOf (lines.getD (s - 1) [])) s
      (lines.drop s) s
    rw [List.length_drop] at h2
    omega

/-- Every element emitted by the extraction loop: its `start_line` is the
1-based position of some line of the processed suffix and its `end_line` is
`_find_end_line` at that position. -/
theorem extractPyLoop_mem (lines : List (List Char)) (fp lang : String) :
    ∀ ls i e, e ∈ extractPyLoop lines fp lang i ls →
      i ≤ e.start_line ∧ e.start_line < i + ls.length ∧
        e.end_line = find_end_line lines e.start_line := by
  intro ls
  induction ls with
  | nil => intro i e he; simp [extractPyLoop] at he
  | cons line rest ih =>
    intro i e he
    simp only [extractPyLoop, List.mem_append] at he
    rcases he with (he | he) | he
    · rcases Option.eq_none_or_eq_some (matchDefLine line) with h | ⟨n, h⟩ <;>
        simp [h] at he
      subst he
      refine ⟨Nat.le_refl _, by simp, rfl⟩
    · rcases Option.eq_none_or_eq_some (matchClassLine line) with h | ⟨n, h⟩ <;>
        simp [h] at he
      subst he
      refine ⟨Nat.le_refl _, by simp, rfl⟩
    · have := ih (i + 1) e he
      simp only [List.length_cons]
      omega

/-! ## Claim theorems -/

/-- C7: every `CodeElement` produced by the pattern tier satisfies
`1 ≤ start_line ≤ end_line ≤ file line count + 1`, where the line count is
`len(code.split("\n"))` as the source computes it. -/
theorem c7_line_range_invariant (code fp lang : String) (e : CodeElement)
    (he : e ∈ extract_python_elements code fp lang) :
    1 ≤ e.start_line ∧ e.start_line ≤ e.end_line ∧
      e.end_line ≤ lineCount code + 1 := by
  unfold extract_python_elements at he
  obtain ⟨h1, h2, h3⟩ := extractPyLoop_mem _ fp lang _ 1 e he
  refine ⟨h1, ?_, ?_⟩
  · rw [h3]; exact find_end_line_ge _ _
  · rw [h3]
    unfold lineCount
    exact find_end_line_le _ _ (by omega)

/-- The 0-based index of the first line for which `breaksBlock` holds (the
spec's "first subsequent non-blank, non-comment line whose leading-whitespace
width is at most the match line's"), `none` when there is no such line. -/
def firstBreakIdx (ind : Nat) : List (List Char) → Option Nat
  | [] => none
  | line :: rest =>
    if breaksBlock ind line then some 0
    else (firstBreakIdx ind rest).map (· + 1)

theorem findEndLoop_firstHit (ind s : Nat) :
    ∀ ls i, 1 ≤ s → s ≤ i →
      findEndLoop ind s i ls =
        match firstBreakIdx ind ls with
        | some k => i + k
        | none => i + ls.length := by
  intro ls
  induction ls with
  | nil => intro i _ _; simp [findEndLoop, firstBreakIdx]
  | cons line rest ih =>
    intro i h1 h2
    by_cases hb : breaksBlock ind line = true
    · have hsi : s - 1 < i := by omega
      simp [findEndLoop, firstBreakIdx, hb, hsi]
    · simp only [Bool.not_eq_true] at hb
      simp only [findEndLoop, firstBreakIdx, hb, Bool.false_eq_true,
        false_and, if_false, if_neg]
      rw [ih (i + 1) h1 (by omega)]
      cases hidx : firstBreakIdx ind rest <;>
        simp [hidx, List.length_cons] <;> ring

/-- The source text of the spec's block-end example. -/
def c6code : String := "def f():\n    x = 1\n    y = 2\nz = 3\n"

/-- C6: the pattern-tier block-end heuristic ends a block at the first
subsequent non-blank, non-comment line whose leading-whitespace width is at
most the match line's (`find_end_line` returns the match-relative position of
the first `breaksBlock` hit after the match line, or the line count when no
such line exists); extracting from
`"def f():\n    x = 1\n    y = 2\nz = 3\n"` with the regex fallback yields
the function `f` with `start_line = 1` and `end_line = 3`. -/
theorem c6_block_end_heuristic :
    (∀ lines s, 1 ≤ s → s < lines.length →
      find_end_line lines s =
        match firstBreakIdx (indentOf (lines.getD (s - 1) []))
            (lines.drop s) with
        | some k => s + k
        | none => lines.length)
    ∧ extract_python_elements c6code "t.py" "python" =
        [⟨"f", "function", "t.py", 1, 3, "python", some "def f():"⟩] := by
  constructor
  · intro lines s h1 h2
    unfold find_end_line
    rw [if_neg (by omega)]
    rw [findEndLoop_firstHit _ _ _ _ h1 (Nat.le_refl s)]
    cases hidx : firstBreakIdx (indentOf (lines.getD (s - 1) []))
        (lines.drop s) <;>
      simp [hidx, List.length_drop]
    exact Nat.add_sub_cancel' (Nat.le_of_lt h2)
  · decide

theorem c6_witness :
    find_end_line (splitOnChar '\n' c6code.data) 1 =
      match firstBreakIdx
          (indentOf ((splitOnChar '\n' c6code.data).getD 0 []))
          ((splitOnChar '\n' c6code.data).drop 1) with
      | some k => 1 + k
      | none => (splitOnChar '\n' c6code.data).length :=
  c6_block_end_heuristic.1 _ 1 (by decide) (by decide)

/-- C5 fails on the code: for the one-line file `"def f():"` the match is on
the last line (`start_line = 1 = ` line count), but `_find_end_line` takes
its `start_line >= len(lines)` branch and returns `start_line + 1 = 2`, so
`end_line` is the file line count plus one, not the file line count. -/
theorem c5_counterexample :
    extract_python_elements "def f():" "a.py" "python" =
        [⟨"f", "function", "a.py", 1, 2, "python", some "def f():"⟩]
      ∧ lineCount "def f():" = 1
      ∧ ¬ (∀ e ∈ extract_python_elements "def f():" "a.py" "python",
            e.start_line = lineCount "def f():" →
              e.end_line = lineCount "def f():") := by
  decide

/-- C5 amended: in the pattern tier, a declaration match on the last line of
the file (`start_line` equal to the file's line count) yields
`end_line = file line count + 1`, one past the line count. -/
theorem c5_amended (code fp lang : String) (e : CodeElement)
    (he : e ∈ extract_python_elements code fp lang)
    (hlast : e.start_line = lineCount code) :
    e.end_line = lineCount code + 1 := by
  simp only [extract_python_elements] at he
  obtain ⟨h1, h2, h3⟩ := extractPyLoop_mem _ fp lang _ 1 e he
  rw [h3, hlast]
  unfold lineCount find_end_line
  rw [if_pos (Nat.le_refl _)]

theorem c5_amended_witness :
    (⟨"f", "function", "a.py", 1, 2, "python", some "def f():"⟩ :
        CodeElement).end_line = lineCount "def f():" + 1 :=
  c5_amended "def f():" "a.py" "python" _ (by decide) (by decide)

/-! ## Lemmas about the Context Budgeter -/

theorem exemptSizes_cons (s : CodeSnippet) (rest : List CodeSnippet) :
    exemptSizes (s :: rest) =
      (if isExempt s then snippetSize s else 0) + exemptSizes rest := by
  unfold exemptSizes
  by_cases h : isExempt s = true <;> simp [List.filter_cons, h]

/-- The running-total invariant of the appending loop: the summed lengths of
the emitted parts, plus one per part, plus the incoming `total_chars`, stays
within the budget, the amount `total` already overshoots it by (`Nat`
subtraction, zero until an exempt snippet overshoots), and the sizes of the
exempt snippets; each part triple undercounts its snippet's `snippet_size`
by 7, which absorbs the join separators. -/
theorem buildParts_size_bound (maxChars : Nat) :
    ∀ (l : List CodeSnippet) (total : Nat),
      ((buildParts maxChars l total).map String.length).sum
          + (buildParts maxChars l total).length + total ≤
        maxChars + (total - maxChars) + exemptSizes l := by
  intro l
  induction l with
  | nil =>
    intro total
    simp only [buildParts, List.map_nil, List.sum_nil, List.length_nil,
      exemptSizes, List.filter_nil]
    omega
  | cons s rest ih =>
    intro total
    rw [exemptSizes_cons]
    by_cases hc : maxChars < total + snippetSize s ∧ isExempt s = false
    · simp only [buildParts, if_pos hc, List.map_nil, List.sum_nil,
        List.length_nil]
      omega
    · simp only [buildParts, if_neg hc, List.map_cons, List.sum_cons,
        List.length_cons]
      have hih := ih (total + snippetSize s)
      have hsize : snippetSize s =
          (snippetHeader s).length + s.code.length + 10 := rfl
      have hempty : ("" : String).length = 0 := rfl
      rcases Decidable.not_and_iff_or_not.mp hc with h | h
      · have hfit : total + snippetSize s ≤ maxChars := Nat.le_of_not_lt h
        have hif : (if isExempt s then snippetSize s else 0) = 0 ∨
            (if isExempt s then snippetSize s else 0) = snippetSize s := by
          cases isExempt s <;> simp
        omega
      · have hex : isExempt s = true := by
          revert h; cases isExempt s <;> simp
        rw [hex, if_pos rfl]
        omega

theorem pyJoin_length_le :
    ∀ parts : List String,
      (pyJoin "\n" parts).length ≤ (parts.map String.length).sum + parts.length
  | [] => by simp [pyJoin]
  | [x] => by simp [pyJoin]
  | x :: y :: rest => by
    have h := pyJoin_length_le (y :: rest)
    have hn : ("\n" : String).length = 1 := rfl
    simp only [pyJoin, String.length_append, List.map_cons, List.sum_cons,
      List.length_cons] at h ⊢
    omega

/-- The non-exempt snippet of the spec's `[100, 100, 100]` example: its
serialized size (header + body + the fixed overhead of 10) is exactly 100
characters. -/
def c1snip : CodeSnippet :=
  ⟨"a.txt", 1, 1,
   "xxxxxxxxxxxxxxxxxxxxxxxxxxxxxxxxxxxxxxxxxxxxxxxxxxxxxxxxxx", none⟩

/-- C1: `_build_context` never returns more than the character budget plus
the combined serialized sizes of the exempt snippets, and for three
non-exempt snippets of serialized size 100 under a budget of 150 exactly one
snippet is included (the loop emits exactly that snippet's three parts and
stops at the second snippet). -/
theorem c1_context_budget :
    (∀ snippets maxChars,
      (build_context snippets maxChars).length ≤ maxChars +
        exemptSizes snippets)
    ∧ snippetSize c1snip = 100
    ∧ isExempt c1snip = false
    ∧ buildParts 150 [c1snip, c1snip, c1snip] 0 =
        [snippetHeader c1snip, c1snip.code, ""] := by
  refine ⟨?_, by decide, by decide, by decide⟩
  intro snippets maxChars
  unfold build_context
  split
  · simp
  · have h1 := pyJoin_length_le (buildParts maxChars snippets 0)
    have h2 := buildParts_size_bound maxChars snippets 0
    omega

/-- A budget-exempt project-metadata snippet used as concrete input. -/
def c4meta : CodeSnippet := ⟨"PROJECT_METADATA", 1, 1, "meta", none⟩

/-- C4 fails on the code: the appending loop `break`s at the first
over-budget non-exempt snippet, so an exempt snippet appearing after that
point is never reached. With a non-exempt snippet of serialized size 100
ahead of a `PROJECT_METADATA` snippet and a budget of 50, `_build_context`
returns the empty string — the exempt snippet is not included even though it
appears in the sequence. -/
theorem c4_counterexample :
    isExempt c4meta = true
      ∧ build_context [c1snip, c4meta] 50 = ""
      ∧ buildParts 50 [c1snip, c4meta] 0 = [] := by
  decide

/-- C4 amended: snippets whose `file_path` is `PROJECT_METADATA` or
`ELEMENTS_SUMMARY` are exempt from the character budget — whenever the
appending loop reaches such a snippet it is included (its header, body and
separator are emitted and its size charged to the running total) regardless
of how much budget was already consumed; but a budget `break` triggered by
an earlier non-exempt snippet stops the loop before any later snippet,
exempt ones included. -/
theorem c4_amended (m : CodeSnippet) (rest : List CodeSnippet)
    (total maxChars : Nat) (hex : isExempt m = true) :
    buildParts maxChars (m :: rest) total =
      snippetHeader m :: m.code :: "" ::
        buildParts maxChars rest (total + snippetSize m) := by
  simp [buildParts, hex]

theorem c4_amended_witness :
    buildParts 0 [c4meta] 1000 =
      snippetHeader c4meta :: c4meta.code :: "" ::
        buildParts 0 [] (1000 + snippetSize c4meta) :=
  c4_amended c4meta [] 1000 0 (by decide)

/-- C3: the token-budget check of `_build_prompt` is advisory only. For
every question, snippet list, character budget, history and token limit:
the prompt is identical under any two token limits (so the token estimate
never changes the text), the context produced under the character budget
appears in the prompt verbatim (as a contiguous substring, untruncated), and
the limit's only output is the Boolean warning condition
`total_tokens > max_context_tokens`. -/
theorem c3_token_check_advisory (limit1 limit2 : Nat)
    (question : String) (snippets : List CodeSnippet) (maxChars : Nat)
    (history : List ChatMsg) :
    (build_prompt limit1 question (build_context snippets maxChars)
        history).1 =
      (build_prompt limit2 question (build_context snippets maxChars)
        history).1
    ∧ (build_context snippets maxChars).data <:+:
        ((build_prompt limit1 question (build_context snippets maxChars)
          history).1).data
    ∧ (build_prompt limit1 question (build_context snippets maxChars)
        history).2 =
      decide (limit1 <
        estimate_tokens (build_context snippets maxChars) +
          estimate_tokens question +
          estimate_tokens (historyTextOf history) + 100) := by
  refine ⟨rfl, ?_, rfl⟩
  simp only [build_prompt]
  split
  · refine ⟨("Aşağıdaki kod parçacıklarını ve konteksti dikkate alarak soruya cevap ver."
        ++ historyTextOf history ++ "\n\nKONTEKST:\n").data,
      ("\n\nSORU: " ++ question ++ "\n\nCEVAP:").data, ?_⟩
    simp [String.data_append, List.append_assoc]
  · rename_i hctx
    simp only [ne_eq, Decidable.not_not] at hctx
    rw [hctx]
    exact List.nil_infix

/-- The 3-node mutual-reference dependency cycle A→B→C→A, as the abstract
similarity index. -/
def cycleIndex : String → Option VMeta := fun n =>
  if n = "A" then some ⟨"A", "B"⟩
  else if n = "B" then some ⟨"B", "C"⟩
  else if n = "C" then some ⟨"C", "A"⟩
  else none

/-- C2: the bounded dependency-closure expansion terminates on every
dependency edge set: the visited-set guard and the depth guard are checked
before recursing, so the walk is insensitive to any fuel at least
`max_depth + 2 - depth` — every adequate fuel computes the same result (the
recursion never reaches the fuel cutoff before the source's own
`depth > max_depth` cutoff). For the cycle A→B→C→A with `max_depth = 2` the
expansion visits each of A, B, C exactly once, at depths 0, 1, 2. -/
theorem c2_closure_terminates :
    (∀ (index : String → Option VMeta) (maxDepth : Nat) (name : String)
        (depth : Nat) (st : WalkState) (fuel fuel' : Nat),
        maxDepth + 2 ≤ fuel + depth → maxDepth + 2 ≤ fuel' + depth →
        getRecFuel index maxDepth fuel name depth st =
          getRecFuel index maxDepth fuel' name depth st)
    ∧ get_element_with_dependencies cycleIndex 2 "A" =
        [(⟨"A", "B"⟩, 0), (⟨"B", "C"⟩, 1), (⟨"C", "A"⟩, 2)]
    ∧ ((get_element_with_dependencies cycleIndex 2 "A").map
        (fun p => p.1.name)).Nodup := by
  refine ⟨?_, by decide, by decide⟩
  intro index maxDepth
  suffices h : ∀ fuel fuel' name depth st,
      maxDepth + 2 ≤ fuel + depth → maxDepth + 2 ≤ fuel' + depth →
      getRecFuel index maxDepth fuel name depth st =
        getRecFuel index maxDepth fuel' name depth st by
    exact fun name depth st fuel fuel' hf hf' =>
      h fuel fuel' name depth st hf hf'
  intro fuel
  induction fuel with
  | zero =>
    intro fuel' name depth st h h'
    obtain ⟨v, r⟩ := st
    cases fuel' with
    | zero => rfl
    | succ f' =>
      simp only [getRecFuel]
      rw [if_pos (Or.inl (by omega))]
  | succ f ih =>
    intro fuel' name depth st h h'
    cases fuel' with
    | zero =>
      obtain ⟨v, r⟩ := st
      simp only [getRecFuel]
      rw [if_pos (Or.inl (by omega))]
    | succ f' =>
      obtain ⟨v, r⟩ := st
      simp only [getRecFuel]
      by_cases hg : maxDepth < depth ∨ v.contains name
      · rw [if_pos hg, if_pos hg]
      · rw [if_neg hg, if_neg hg]
        cases hidx : index name with
        | none => rfl
        | some m =>
          have hfun :
              (fun (st : WalkState) (d : String) =>
                getRecFuel index maxDepth f d (depth + 1) st) =
              (fun (st : WalkState) (d : String) =>
                getRecFuel index maxDepth f' d (depth + 1) st) := by
            funext st d
            exact ih f' d (depth + 1) st (by omega) (by omega)
          rw [hfun]

theorem c2_witness :
    getRecFuel cycleIndex 2 4 "A" 0 ([], []) =
      getRecFuel cycleIndex 2 9 "A" 0 ([], []) :=
  c2_closure_terminates.1 cycleIndex 2 "A" 0 ([], []) 4 9 (by omega)
    (by omega)

/-- An element whose name `fooBar` must be found by the case-insensitive
query `Foo`. -/
def fooBarElem : CodeElement :=
  ⟨"fooBar", "function", "a.py", 1, 2, "python", some "def fooBar(x):"⟩

/-- An element that matches neither the name nor the signature for the
query `Foo`. -/
def bazElem : CodeElement :=
  ⟨"baz", "function", "b.py", 1, 2, "python", some "def baz():"⟩

/-- A one-project store for the concrete search examples. -/
def demoProjects : List (String × ProjectIndex) :=
  [("p1", ⟨"p1", 2, 2, ["python"], [fooBarElem, bazElem]⟩)]

/-- C8: `search_elements` returns exactly the stored elements whose lowered
name or lowered signature contains the lowered query as a substring, as a
sublist of the stored sequence (preserving stored order); an unknown project
id yields `[]`, never an error; and the case-insensitive query `"Foo"` finds
the element named `"fooBar"`. -/
theorem c8_search_contract :
    (∀ projects projectId query,
      lookupA projects projectId = none →
        search_elements projects projectId query = [])
    ∧ (∀ projects projectId query idx,
        lookupA projects projectId = some idx →
        (search_elements projects projectId query).Sublist idx.elements
        ∧ ∀ e, e ∈ search_elements projects projectId query ↔
            e ∈ idx.elements ∧
              (strIn (pyLower query) (pyLower e.name)
                || strIn (pyLower query) (pyLower (e.signature.getD "")))
                = true)
    ∧ search_elements demoProjects "p1" "Foo" = [fooBarElem]
    ∧ search_elements demoProjects "missing" "Foo" = [] := by
  refine ⟨?_, ?_, by decide, by decide⟩
  · intro projects projectId query hnone
    simp [search_elements, hnone]
  · intro projects projectId query idx hsome
    simp only [search_elements, hsome]
    exact ⟨List.filter_sublist _, fun e => by rw [List.mem_filter]⟩

theorem c8_witness :
    search_elements [] "p1" "Foo" = [] ∧
      (search_elements demoProjects "p1" "Foo").Sublist
        [fooBarElem, bazElem] :=
  ⟨c8_search_contract.1 [] "p1" "Foo" rfl,
   (c8_search_contract.2.1 demoProjects "p1" "Foo"
      ⟨"p1", 2, 2, ["python"], [fooBarElem, bazElem]⟩ rfl).1⟩

/-! ## Lemmas about the `index_project` walk -/

/-- The elements a visited file contributes: none unless its language is
recognized and its read succeeded. -/
def elemsOf (extract : String → String → String → List CodeElement)
    (f : PyFile) : List CodeElement :=
  match detect_language f.path, f.readResult with
  | some lang, some code => extract code f.path lang
  | _, _ => []

/-- The number of visited files with a recognized language. -/
def supportedCount (files : List PyFile) : Nat :=
  (files.filter (fun f => (detect_language f.path).isSome)).length

theorem mem_addLang (L : List String) (x l : String) :
    l ∈ addLang L x ↔ l ∈ L ∨ l = x := by
  unfold addLang
  split
  · rename_i h
    constructor
    · exact Or.inl
    · rintro (h' | rfl)
      · exact h'
      · exact h
  · simp [List.mem_append]

theorem indexStep_fields
    (extract : String → String → String → List CodeElement)
    (st : IndexState) (f : PyFile) :
    (indexStep extract st f).total = st.total + 1
    ∧ (indexStep extract st f).supported =
        st.supported + (if (detect_language f.path).isSome then 1 else 0)
    ∧ (indexStep extract st f).elements = st.elements ++ elemsOf extract f
    ∧ ((detect_language f.path = none
          ∧ (indexStep extract st f).langs = st.langs)
        ∨ ∃ lang, detect_language f.path = some lang
            ∧ (indexStep extract st f).langs = addLang st.langs lang) := by
  cases hd : detect_language f.path with
  | none => simp [indexStep, elemsOf, hd]
  | some lang =>
    cases hr : f.readResult with
    | none => simp [indexStep, elemsOf, hd, hr]
    | some code => simp [indexStep, elemsOf, hd, hr]

theorem index_foldl
    (extract : String → String → String → List CodeElement) :
    ∀ (files : List PyFile) (st : IndexState),
      (files.foldl (indexStep extract) st).total = st.total + files.length
      ∧ (files.foldl (indexStep extract) st).supported =
          st.supported + supportedCount files
      ∧ (files.foldl (indexStep extract) st).elements =
          st.elements ++ files.flatMap (elemsOf extract)
      ∧ ∀ l, l ∈ (files.foldl (indexStep extract) st).langs ↔
          l ∈ st.langs ∨ ∃ f ∈ files, detect_language f.path = some l := by
  intro files
  induction files with
  | nil => intro st; simp [supportedCount]
  | cons f fs ih =>
    intro st
    obtain ⟨ht, hs, he, hl⟩ := indexStep_fields extract st f
    obtain ⟨iht, ihs, ihe, ihl⟩ := ih (indexStep extract st f)
    simp only [List.foldl_cons]
    refine ⟨?_, ?_, ?_, ?_⟩
    · rw [iht, ht, List.length_cons]; omega
    · rw [ihs, hs]
      have : supportedCount (f :: fs) =
          (if (detect_language f.path).isSome then 1 else 0)
            + supportedCount fs := by
        unfold supportedCount
        rw [List.filter_cons]
        split
        · rename_i hp; simp [hp]; omega
        · rename_i hp; simp [hp]
      omega
    · rw [ihe, he, List.flatMap_cons, List.append_assoc]
    · intro l
      rw [ihl l]
      constructor
      · rintro (hin | ⟨g, hg, hgl⟩)
        · rcases hl with ⟨_, hL⟩ | ⟨lang, hlang, hL⟩
          · rw [hL] at hin
            exact Or.inl hin
          · rw [hL, mem_addLang] at hin
            rcases hin with hin | rfl
            · exact Or.inl hin
            · exact Or.inr ⟨f, List.mem_cons_self _ _, hlang⟩
        · exact Or.inr ⟨g, List.mem_cons_of_mem _ hg, hgl⟩
      · rintro (hin | ⟨g, hg, hgl⟩)
        · rcases hl with ⟨_, hL⟩ | ⟨lang, hlang, hL⟩
          · rw [hL]; exact Or.inl hin
          · rw [hL, mem_addLang]; exact Or.inl (Or.inl hin)
        · rcases List.mem_cons.mp hg with rfl | hg'
          · rcases hl with ⟨hnone, _⟩ | ⟨lang, hlang, hL⟩
            · rw [hnone] at hgl; exact absurd hgl (by simp)
            · rw [hL, mem_addLang]
              rw [hlang] at hgl
              exact Or.inl (Or.inr (Option.some.inj hgl).symm)
          · exact Or.inr ⟨g, hg', hgl⟩

/-- C9: every visited file increments `total_files`; a file with an
unrecognized extension leaves `supported_files` and the element list exactly
as if it were absent; a file whose language is recognized but whose read or
extraction raises (modelled by `readResult = none`, the `except` branch)
still increments `supported_files` and records its language, contributes no
elements, and leaves the contributions of all other files intact (indexing
of the remaining files is not aborted). -/
theorem c9_per_file_isolation
    (extract : String → String → String → List CodeElement) :
    (∀ files, (index_project extract files).total = files.length)
    ∧ (∀ pre f post, detect_language f.path = none →
        (index_project extract (pre ++ f :: post)).supported =
            (index_project extract (pre ++ post)).supported
        ∧ (index_project extract (pre ++ f :: post)).elements =
            (index_project extract (pre ++ post)).elements
        ∧ (index_project extract (pre ++ f :: post)).total =
            (index_project extract (pre ++ post)).total + 1)
    ∧ (∀ pre f post lang, detect_language f.path = some lang →
        f.readResult = none →
        (index_project extract (pre ++ f :: post)).supported =
            (index_project extract (pre ++ post)).supported + 1
        ∧ (index_project extract (pre ++ f :: post)).elements =
            (index_project extract (pre ++ post)).elements
        ∧ lang ∈ (index_project extract (pre ++ f :: post)).langs) := by
  have hchar := index_foldl extract
  refine ⟨?_, ?_, ?_⟩
  · intro files
    have := (hchar files ⟨0, 0, [], [], []⟩).1
    simpa [index_project] using this
  · intro pre f post hnone
    obtain ⟨ht1, hs1, he1, _⟩ := hchar (pre ++ f :: post) ⟨0, 0, [], [], []⟩
    obtain ⟨ht2, hs2, he2, _⟩ := hchar (pre ++ post) ⟨0, 0, [], [], []⟩
    have hcount : supportedCount (pre ++ f :: post) =
        supportedCount (pre ++ post) := by
      unfold supportedCount
      simp [List.filter_append, List.filter_cons, hnone]
    have helems : (pre ++ f :: post).flatMap (elemsOf extract) =
        (pre ++ post).flatMap (elemsOf extract) := by
      simp [List.flatMap_append, List.flatMap_cons, elemsOf, hnone]
    refine ⟨?_, ?_, ?_⟩
    · simp only [index_project]; rw [hs1, hs2, hcount]
    · simp only [index_project]; rw [he1, he2, helems]
    · simp only [index_project]; rw [ht1, ht2]; simp; omega
  · intro pre f post lang hsome hread
    obtain ⟨_, hs1, he1, hl1⟩ := hchar (pre ++ f :: post) ⟨0, 0, [], [], []⟩
    obtain ⟨_, hs2, he2, _⟩ := hchar (pre ++ post) ⟨0, 0, [], [], []⟩
    have hcount : supportedCount (pre ++ f :: post) =
        supportedCount (pre ++ post) + 1 := by
      unfold supportedCount
      simp [List.filter_append, List.filter_cons, hsome]
      omega
    have helems : (pre ++ f :: post).flatMap (elemsOf extract) =
        (pre ++ post).flatMap (elemsOf extract) := by
      simp [List.flatMap_append, List.flatMap_cons, elemsOf, hsome, hread]
    refine ⟨?_, ?_, ?_⟩
    · simp only [index_project]; rw [hs1, hs2, hcount]; omega
    · simp only [index_project]; rw [he1, he2, helems]
    · simp only [index_project]
      rw [hl1 lang]
      exact Or.inr ⟨f, by simp, hsome⟩

theorem c9_witness :
    (index_project (fun _ _ _ => []) [⟨"x.bin", some "d"⟩]).supported =
        (index_project (fun _ _ _ => []) ([] ++ [])).supported
      ∧ (index_project (fun _ _ _ => [])
          [⟨"a.py", none⟩]).supported =
        (index_project (fun _ _ _ => []) ([] ++ [])).supported + 1 := by
  constructor
  · exact ((c9_per_file_isolation (fun _ _ _ => [])).2.1 [] ⟨"x.bin", some "d"⟩
      [] (by decide)).1
  · exact ((c9_per_file_isolation (fun _ _ _ => [])).2.2 [] ⟨"a.py", none⟩
      [] "python" (by decide) rfl).1

/-- C10: `get_code_snippet` is total over arbitrary integer line ranges: an
unknown project id or file path yields `none`; otherwise it returns a
snippet whose text is the file's lines sliced (Python slice semantics) from
`max(0, start_line - 1)` to `min(line count, end_line)` and joined with
newlines, while the returned record carries the caller's `start_line` and
`end_line` unchanged; an inverted in-range pair (`0 ≤ end_line < start_line`)
yields the empty text. -/
theorem c10_snippet_total :
    (∀ store projectId filePath (s e : Int),
      lookupA store projectId = none →
        get_code_snippet store projectId filePath s e = none)
    ∧ (∀ store projectId filePath (s e : Int) files,
        lookupA store projectId = some files →
        lookupA files filePath = none →
        get_code_snippet store projectId filePath s e = none)
    ∧ (∀ store projectId filePath (s e : Int) files code,
        lookupA store projectId = some files →
        lookupA files filePath = some code →
        get_code_snippet store projectId filePath s e =
          some ⟨filePath, s, e,
            pyJoin "\n"
              (pySlice ((splitOnChar '\n' code.data).map String.mk)
                (max 0 (s - 1))
                (min ((((splitOnChar '\n' code.data).map String.mk).length :
                  Int)) e)),
            none⟩)
    ∧ (∀ store projectId filePath (s e : Int) files code,
        lookupA store projectId = some files →
        lookupA files filePath = some code →
        0 ≤ e → e + 1 ≤ s →
        (get_code_snippet store projectId filePath s e).map
          (fun sn => sn.code) = some "") := by
  have h3 : ∀ store projectId filePath (s e : Int) files code,
      lookupA store projectId = some files →
      lookupA files filePath = some code →
      get_code_snippet store projectId filePath s e =
        some ⟨filePath, s, e,
          pyJoin "\n"
            (pySlice ((splitOnChar '\n' code.data).map String.mk)
              (max 0 (s - 1))
              (min ((((splitOnChar '\n' code.data).map String.mk).length :
                Int)) e)),
          none⟩ := by
    intro store projectId filePath s e files code h1 h2
    simp [get_code_snippet, h1, h2]
  refine ⟨?_, ?_, h3, ?_⟩
  · intro store projectId filePath s e h
    simp [get_code_snippet, h]
  · intro store projectId filePath s e files h1 h2
    simp [get_code_snippet, h1, h2]
  · intro store projectId filePath s e files code h1 h2 he hes
    rw [h3 store projectId filePath s e files code h1 h2]
    have hempty :
        pySlice ((splitOnChar '\n' code.data).map String.mk)
          (max 0 (s - 1))
          (min ((((splitOnChar '\n' code.data).map String.mk).length : Int))
            e) = [] := by
      set L := (splitOnChar '\n' code.data).map String.mk with hL
      unfold pySlice pySliceIdx
      have ha : ¬ (max 0 (s - 1) < 0) := by omega
      have hb : ¬ (min ((L.length : Int)) e < 0) := by omega
      rw [if_neg ha, if_neg hb]
      apply List.drop_eq_nil_of_le
      rw [List.length_take]
      omega
    rw [hempty]
    rfl

theorem c10_witness :
    get_code_snippet [("p", [("f.py", "a\nb")])] "nope" "f.py" 1 2 = none
      ∧ (get_code_snippet [("p", [("f.py", "a\nb")])] "p" "f.py" 5 2).map
          (fun sn => sn.code) = some "" :=
  ⟨c10_snippet_total.1 [("p", [("f.py", "a\nb")])] "nope" "f.py" 1 2 rfl,
   c10_snippet_total.2.2.2 [("p", [("f.py", "a\nb")])] "p" "f.py" 5 2
     [("f.py", "a\nb")] "a\nb" rfl rfl (by omega) (by omega)⟩

theorem c7_witness :
    1 ≤ (1 : Nat) ∧ 1 ≤ (2 : Nat) ∧ 2 ≤ lineCount "def f():" + 1 := by
  have h := c7_line_range_invariant "def f():" "a.py" "python"
    ⟨"f", "function", "a.py", 1, 2, "python", some "def f():"⟩ (by decide)
  simpa using h

end AIKod
